import Mathlib

/-! Hangman (src/main.cpp): embedding of the round logic

Values of C type `char` and `int` are integers (`Int`).  A C array of `char`
is the list of its bytes; a C string is such an array holding a NUL byte, so
the literal "ship" is the five bytes `s h i p 0`.  Reading or writing outside
an array is undefined behaviour in C and is modelled as an explicit failure.
-/

namespace Hangman

/-! ## Constants and the lexicon (main.cpp lines 9-44) -/

def WINDOW_WIDTH : Int := 1920
def WINDOW_HEIGHT : Int := 1080

inductive Theme where
  | PIRATES
  | CRIME_DRAMA
  | COMICS
deriving DecidableEq, Repr

structure WordHintPair where
  word : String
  hint : String
deriving DecidableEq, Repr

def piratesWords : List WordHintPair :=
  [ ⟨"treasure", "Pirate's gold"⟩,
    ⟨"ship", "Pirate's vehicle"⟩,
    ⟨"parrot", "Pirate's pet"⟩,
    ⟨"captain", "Leader of the pirates"⟩,
    ⟨"island", "Pirate's hideout"⟩ ]

def crimeDramaWords : List WordHintPair :=
  [ ⟨"detective", "Investigative professional"⟩,
    ⟨"murder", "Intentional killing of a person"⟩,
    ⟨"evidence", "Proof or indication"⟩,
    ⟨"suspect", "Person believed to be guilty"⟩,
    ⟨"alibi", "Claim of being elsewhere during a crime"⟩ ]

def comicsWords : List WordHintPair :=
  [ ⟨"superhero", "Comics hero"⟩,
    ⟨"villain", "Comics antagonist"⟩,
    ⟨"cape", "Hero's garment"⟩,
    ⟨"power", "Hero's ability"⟩,
    ⟨"mask", "Hero's disguise"⟩ ]

/-- Bytes of a C string literal: the character codes followed by the NUL. -/
def cstr (s : String) : List Int :=
  s.toList.map (fun ch => (ch.toNat : Int)) ++ [0]

/-! ## The C library string functions used by the program -/

/-- Result of `strchr(s, c) != NULL` on the array `s`: scan from the start,
stop at the first byte equal to `c` (found) or at the NUL (not found).
`none` when the scan leaves the array without meeting either. -/
def strchr : List Int → Int → Option Bool
  | [], _ => none
  | b :: rest, c =>
    if b = c then some true
    else if b = 0 then some false
    else strchr rest c

/-- Result of `strlen(s)` on the array `s`; `none` when there is no NUL. -/
def strlen : List Int → Option Nat
  | [] => none
  | b :: rest => if b = 0 then some 0 else (strlen rest).map (· + 1)

/-! ## Outcome of running a fragment of `main` -/

/-- Outcome of a fragment: it completes with a value, the process leaves
through the SDL_QUIT branch, or it accesses an array out of bounds. -/
inductive Exec (α : Type) where
  | ok (a : α)
  | quit
  | fault
deriving DecidableEq, Repr

/-! ## Round state (main.cpp lines 106-113) -/

/-- The variables of one round.  `numGuessedLetters` is only ever counted up
from 0, so it is a natural number. -/
structure Round where
  guessedLetters : List Int
  numGuessedLetters : Nat
  wrongGuesses : Int
  gameOver : Bool
  needsRedraw : Bool
deriving DecidableEq, Repr

/-- State at lines 107-113: `char guessedLetters[26] = {0}` and the counters. -/
def Round.init : Round :=
  { guessedLetters := List.replicate 26 0
    numGuessedLetters := 0
    wrongGuesses := 0
    gameOver := false
    needsRedraw := true }

/-! ## Event handling (main.cpp lines 119-139) -/

inductive Event where
  | quit
  | keyDown (sym : Int)
  | other
deriving DecidableEq, Repr

/-- Conversion `(char)sym` of a 32-bit key code to an 8-bit signed `char`: the
low byte, read in two's complement.  With an unsigned `char` the values 97..122
are reached from the same key codes. -/
def toChar (sym : Int) : Int := (sym + 128) % 256 - 128

/-- One pass through the body of `while (SDL_PollEvent(&e))` (lines 120-138).
The store `guessedLetters[numGuessedLetters++] = guessedLetter` fails when the
index is not inside the array. -/
def handleEvent (word : List Int) (s : Round) : Event → Exec Round
  | .quit => .quit
  | .other => .ok s
  | .keyDown sym =>
    let guessedLetter := toChar sym
    if 97 ≤ guessedLetter ∧ guessedLetter ≤ 122 then
      if s.numGuessedLetters < s.guessedLetters.length then
        match strchr word guessedLetter with
        | none => .fault
        | some found =>
          .ok { s with
                guessedLetters := s.guessedLetters.set s.numGuessedLetters guessedLetter
                numGuessedLetters := s.numGuessedLetters + 1
                wrongGuesses := if found then s.wrongGuesses else s.wrongGuesses + 1
                needsRedraw := true }
      else .fault
    else .ok s

/-- The loop `while (SDL_PollEvent(&e))` over the events pending in the queue. -/
def pollEvents (word : List Int) : Round → List Event → Exec Round
  | s, [] => .ok s
  | s, e :: rest =>
    match handleEvent word s e with
    | .ok s' => pollEvents word s' rest
    | .quit => .quit
    | .fault => .fault

/-! ## Drawing the word (main.cpp lines 301-337) -/

/-- What `drawWord` renders for one character of the word, with the `x`
coordinate of its rectangle: the letter in text, or the filled bar. -/
inductive Cell where
  | letter (x : Int) (c : Int)
  | underscore (x : Int)
deriving DecidableEq, Repr

/-- Inner loop of `drawWord`: `for (j = 0; j < numGuessedLetters; j++)` comparing
`word[i]` with `guessedLetters[j]` and leaving at the first match.  The second
argument is `guessedLetters` from index `j` on, the third is how many indices
remain.  `none` when an index read lies outside the array. -/
def searchGuessed (c : Int) : List Int → Nat → Option Bool
  | _, 0 => some false
  | [], _ + 1 => none
  | g :: gs, k + 1 => if c = g then some true else searchGuessed c gs k

/-- Outer loop of `drawWord` over the characters still to draw, `x` growing by 40. -/
def drawCells (guessedLetters : List Int) (numGuessedLetters : Nat) :
    List Int → Int → Option (List Cell)
  | [], _ => some []
  | c :: cs, x =>
    match searchGuessed c guessedLetters numGuessedLetters with
    | none => none
    | some guessed =>
      (drawCells guessedLetters numGuessedLetters cs (x + 40)).map
        (fun cells => (if guessed then Cell.letter x c else Cell.underscore x) :: cells)

/-- The cells rendered by `drawWord`, in drawing order, starting at `x = 100`. -/
def drawWord (word guessedLetters : List Int) (numGuessedLetters : Nat) :
    Option (List Cell) :=
  match strlen word with
  | none => none
  | some wordLen => drawCells guessedLetters numGuessedLetters (word.take wordLen) 100

/-! ## One iteration of the round loop (main.cpp lines 117-188) -/

/-- What an iteration of the round loop puts on screen. -/
inductive Output where
  | redraw (wrongGuesses : Int) (cells : List Cell) (triesLeft : Int)
  | losingScreen
  | congratulationsScreen
deriving DecidableEq, Repr

/-- The number printed after "Tries left:" (line 159). -/
def triesLeft (s : Round) : Int := 6 - s.wrongGuesses

/-- Lines 142-166: redraw when `needsRedraw` is set, then clear the flag. -/
def redraw (word : List Int) (s : Round) : Exec (Round × List Output) :=
  if s.needsRedraw then
    match drawWord word s.guessedLetters s.numGuessedLetters with
    | none => .fault
    | some cells =>
      .ok ({ s with needsRedraw := false }, [Output.redraw s.wrongGuesses cells (triesLeft s)])
  else .ok (s, [])

/-- Lines 177-182: the number of characters of the word for which
`strchr(guessedLetters, word[i])` finds a byte. -/
def countCorrect (guessedLetters : List Int) : List Int → Option Nat
  | [] => some 0
  | c :: cs =>
    match strchr guessedLetters c with
    | none => none
    | some found =>
      (countCorrect guessedLetters cs).map (fun k => if found then k + 1 else k)

/-- Lines 168-187: the lose check, then the win check, each showing its
screen and setting `gameOver`.  The second test is not in an `else`.  The
screens wait for the Return key; what they draw is not part of the round state. -/
def gameOverChecks (word : List Int) (s : Round) : Exec (Round × List Output) :=
  let lost : Bool := decide (s.wrongGuesses ≥ 6)
  let s1 : Round := if lost then { s with gameOver := true } else s
  let out1 : List Output := if lost then [Output.losingScreen] else []
  match strlen word with
  | none => .fault
  | some wordLen =>
    match countCorrect s.guessedLetters (word.take wordLen) with
    | none => .fault
    | some correctGuesses =>
      if correctGuesses = wordLen then
        .ok ({ s1 with gameOver := true }, out1 ++ [Output.congratulationsScreen])
      else .ok (s1, out1)

/-- Body of `while (!gameOver)`: drain the pending events, redraw, check. -/
def roundIteration (word : List Int) (s : Round) (pending : List Event) :
    Exec (Round × List Output) :=
  match pollEvents word s pending with
  | .quit => .quit
  | .fault => .fault
  | .ok s1 =>
    match redraw word s1 with
    | .quit => .quit
    | .fault => .fault
    | .ok (s2, out2) =>
      match gameOverChecks word s2 with
      | .quit => .quit
      | .fault => .fault
      | .ok (s3, out3) => .ok (s3, out2 ++ out3)

/-- The loop `while (!gameOver)`: one list of pending events per iteration.
It stops when `gameOver` is set; when the lists run out the round is still
waiting for input. -/
def runRound (word : List Int) : Round → List (List Event) → Exec (Round × List Output)
  | s, [] => .ok (s, [])
  | s, pending :: rest =>
    if s.gameOver then .ok (s, [])
    else
      match roundIteration word s pending with
      | .quit => .quit
      | .fault => .fault
      | .ok (s1, out1) =>
        match runRound word s1 rest with
        | .quit => .quit
        | .fault => .fault
        | .ok (s2, out2) => .ok (s2, out1 ++ out2)

/-- Key events delivered one per iteration, so the checks run after each. -/
def oneByOne (syms : List Int) : List (List Event) :=
  syms.map (fun sym => [Event.keyDown sym])

/-! ## The hangman figure (main.cpp lines 202-256) -/

structure Rect where
  x : Int
  y : Int
  w : Int
  h : Int
deriving DecidableEq, Repr

inductive Shape where
  | base | upright | beam | rope
  | head | body | leftArm | rightArm | leftLeg | rightLeg
deriving DecidableEq, Repr

/-- The rectangles `drawHangman` fills, in drawing order, each with the name
of its variable in the source. -/
def drawHangman (wrongGuesses : Int) : List (Shape × Rect) :=
  [ (Shape.base, ⟨WINDOW_WIDTH / 2 - 100, WINDOW_HEIGHT - 100, 200, 20⟩),
    (Shape.upright, ⟨WINDOW_WIDTH / 2, 100, 20, WINDOW_HEIGHT - 200⟩),
    (Shape.beam, ⟨WINDOW_WIDTH / 2, 100, 200, 20⟩),
    (Shape.rope, ⟨WINDOW_WIDTH / 2 + 190, 120, 10, 50⟩) ]
  ++ (if wrongGuesses ≥ 1 then [(Shape.head, ⟨WINDOW_WIDTH / 2 + 175, 170, 50, 50⟩)] else [])
  ++ (if wrongGuesses ≥ 2 then [(Shape.body, ⟨WINDOW_WIDTH / 2 + 190, 220, 20, 100⟩)] else [])
  ++ (if wrongGuesses ≥ 3 then [(Shape.leftArm, ⟨WINDOW_WIDTH / 2 + 140, 240, 50, 20⟩)] else [])
  ++ (if wrongGuesses ≥ 4 then [(Shape.rightArm, ⟨WINDOW_WIDTH / 2 + 210, 240, 50, 20⟩)] else [])
  ++ (if wrongGuesses ≥ 5 then [(Shape.leftLeg, ⟨WINDOW_WIDTH / 2 + 180, 320, 50, 20⟩)] else [])
  ++ (if wrongGuesses ≥ 6 then [(Shape.rightLeg, ⟨WINDOW_WIDTH / 2 + 210, 320, 50, 20⟩)] else [])

/-- The gallows: drawn whatever the count. -/
def Shape.isBodyPart : Shape → Bool
  | .base | .upright | .beam | .rope => false
  | _ => true

/-- The body parts among the shapes `drawHangman` draws, in drawing order. -/
def bodyPartsDrawn (wrongGuesses : Int) : List Shape :=
  ((drawHangman wrongGuesses).map Prod.fst).filter Shape.isBodyPart

/-- The fixed order in which the source tests for the body parts. -/
def bodyPartOrder : List Shape :=
  [Shape.head, Shape.body, Shape.leftArm, Shape.rightArm, Shape.leftLeg, Shape.rightLeg]

/-! ## Picking the word (main.cpp lines 431-447) -/

/-- The array a theme indexes in `getRandomWordAndHint`. -/
def wordsOf : Theme → List WordHintPair
  | .PIRATES => piratesWords
  | .CRIME_DRAMA => crimeDramaWords
  | .COMICS => comicsWords

/-- The body of `getRandomWordAndHint`, `r` being the value `rand()` returns and
the divisor `sizeof(list) / sizeof(list[0])` the number of elements: `none` is
the null pointer, or an index outside the array.  The `default` arm of the
switch has no enumerator of `Theme` to reach it. -/
def getRandomWordAndHint (theme : Theme) (r : Nat) : Option WordHintPair :=
  match theme with
  | .PIRATES => piratesWords[r % piratesWords.length]?
  | .CRIME_DRAMA => crimeDramaWords[r % crimeDramaWords.length]?
  | .COMICS => comicsWords[r % comicsWords.length]?

/-! ## Round states written by their recorded letters -/

/-- The round state whose 26-byte array holds the letters `ls` followed by
zero bytes, with `numGuessedLetters = ls.length`. -/
def Round.holding (ls : List Int) (wrongGuesses : Int) (gameOver needsRedraw : Bool) : Round :=
  { guessedLetters := ls ++ List.replicate (26 - ls.length) 0
    numGuessedLetters := ls.length
    wrongGuesses := wrongGuesses
    gameOver := gameOver
    needsRedraw := needsRedraw }

/-! ## Facts about the string functions -/

theorem strchr_terminated (w tail : List Int) (c : Int) (hw : ∀ b ∈ w, b ≠ 0) (hc : c ≠ 0) :
    strchr (w ++ 0 :: tail) c = some (decide (c ∈ w)) := by
  induction w with
  | nil => simp [strchr, Ne.symm hc]
  | cons b rest ih =>
    have hb : b ≠ 0 := hw b (by simp)
    have hrest : ∀ b ∈ rest, b ≠ 0 := fun x hx => hw x (by simp [hx])
    by_cases hbc : b = c
    · simp [strchr, hbc]
    · have hcb : ¬ c = b := fun h => hbc h.symm
      simp [strchr, hbc, hb, ih hrest, hcb]

theorem strchr_cstr (w : List Int) (c : Int) (hw : ∀ b ∈ w, b ≠ 0) (hc : c ≠ 0) :
    strchr (w ++ [0]) c = some (decide (c ∈ w)) :=
  strchr_terminated w [] c hw hc

theorem strlen_cstr (w : List Int) (hw : ∀ b ∈ w, b ≠ 0) :
    strlen (w ++ [0]) = some w.length := by
  induction w with
  | nil => simp [strlen]
  | cons b rest ih =>
    have hb : b ≠ 0 := hw b (by simp)
    have hrest : ∀ b ∈ rest, b ≠ 0 := fun x hx => hw x (by simp [hx])
    simp [strlen, hb, ih hrest]

theorem searchGuessed_eq (c : Int) (n : Nat) :
    ∀ g : List Int, n ≤ g.length → searchGuessed c g n = some (decide (c ∈ g.take n)) := by
  induction n with
  | zero => intro g _; simp [searchGuessed]
  | succ k ih =>
    intro g hg
    cases g with
    | nil => simp at hg
    | cons b rest =>
      have hk : k ≤ rest.length := by simpa using hg
      by_cases hcb : c = b
      · simp [searchGuessed, hcb]
      · simp [searchGuessed, hcb, ih rest hk]

theorem drawCells_spec (g : List Int) (n : Nat) (hn : n ≤ g.length) :
    ∀ (cs : List Int) (x : Int), ∃ cells, drawCells g n cs x = some cells ∧
      cells.length = cs.length ∧
      ∀ (i : Nat) (c : Int), cs[i]? = some c → cells[i]? =
        some (if c ∈ g.take n then Cell.letter (x + 40 * i) c else Cell.underscore (x + 40 * i)) := by
  intro cs
  induction cs with
  | nil => intro x; exact ⟨[], by simp [drawCells], rfl, by simp⟩
  | cons c rest ih =>
    intro x
    obtain ⟨cells, h1, h2, h3⟩ := ih (x + 40)
    refine ⟨(if decide (c ∈ g.take n) then Cell.letter x c else Cell.underscore x) :: cells,
      by simp [drawCells, searchGuessed_eq c n g hn, h1], by simp [h2], ?_⟩
    intro i d hi
    cases i with
    | zero =>
      simp at hi
      subst hi
      simp
    | succ j =>
      simp at hi
      have := h3 j d hi
      have e : x + 40 + 40 * (j : Int) = x + 40 * ((j : Int) + 1) := by ring
      simp [this, e]


/-- The cells of `drawWord` on a NUL-terminated word and an array that holds
the indices the inner loop reads. -/
theorem drawWord_cells (w guessedLetters : List Int) (numGuessedLetters : Nat)
    (hw : ∀ b ∈ w, b ≠ 0) (hn : numGuessedLetters ≤ guessedLetters.length) :
    ∃ cells, drawWord (w ++ [0]) guessedLetters numGuessedLetters = some cells ∧
      cells.length = w.length ∧
      ∀ (i : Nat) (c : Int), w[i]? = some c →
        cells[i]? = some (if c ∈ guessedLetters.take numGuessedLetters
          then Cell.letter (100 + 40 * i) c else Cell.underscore (100 + 40 * i)) := by
  have hlen := strlen_cstr w hw
  have htake : (w ++ [0]).take w.length = w := by simp
  obtain ⟨cells, h1, h2, h3⟩ := drawCells_spec guessedLetters numGuessedLetters hn w 100
  exact ⟨cells, by simp only [drawWord, hlen, htake, h1], h2, h3⟩

/-- C6: for a word `w` (its characters, none of them NUL) and a guessed-letter
array holding at least `numGuessedLetters` bytes, `drawWord` renders exactly
one cell per character of the word, in order (cell `i` at `x = 100 + 40 i`):
the character itself when it occurs among the first `numGuessedLetters`
guessed letters, the underscore bar otherwise. -/
theorem drawWord_masks (w guessedLetters : List Int) (numGuessedLetters : Nat)
    (hw : ∀ b ∈ w, b ≠ 0) (hn : numGuessedLetters ≤ guessedLetters.length) :
    ∃ cells, drawWord (w ++ [0]) guessedLetters numGuessedLetters = some cells ∧
      cells.length = w.length ∧
      ∀ (i : Nat) (c : Int), w[i]? = some c →
        cells[i]? = some (if c ∈ guessedLetters.take numGuessedLetters
          then Cell.letter (100 + 40 * i) c else Cell.underscore (100 + 40 * i)) :=
  drawWord_cells w guessedLetters numGuessedLetters hw hn

/-- C6 at the word "ship" with guessed letters s, p: the cells read s _ _ p. -/
theorem drawWord_masks_witness :
    (∀ b ∈ [115, 104, 105, 112], b ≠ (0 : Int)) ∧ 2 ≤ [(115 : Int), 112].length ∧
    cstr "ship" = [115, 104, 105, 112] ++ [0] ∧
    drawWord (cstr "ship") [115, 112] 2 =
      some [Cell.letter 100 115, Cell.underscore 140, Cell.underscore 180, Cell.letter 220 112] ∧
    ∃ cells, drawWord ([115, 104, 105, 112] ++ [0]) [115, 112] 2 = some cells ∧
      cells.length = [(115 : Int), 104, 105, 112].length ∧
      ∀ (i : Nat) (c : Int), [(115 : Int), 104, 105, 112][i]? = some c →
        cells[i]? = some (if c ∈ [(115 : Int), 112].take 2
          then Cell.letter (100 + 40 * i) c else Cell.underscore (100 + 40 * i)) :=
  ⟨by decide, by decide, by decide, by decide,
    drawWord_masks [115, 104, 105, 112] [115, 112] 2 (by decide) (by decide)⟩

/-! ## The hangman figure -/

/-- C9: for every integer `wrongGuesses`, the body parts `drawHangman` draws
are the first `min (max wrongGuesses 0) 6` of head, body, left arm, right arm,
left leg, right leg, after the four gallows rectangles; so their number is
that minimum, none at 0, and the drawn parts only grow with the count. -/
theorem drawHangman_body_parts (wrongGuesses : Int) :
    bodyPartsDrawn wrongGuesses = bodyPartOrder.take (min (max wrongGuesses 0) 6).toNat ∧
    ((bodyPartsDrawn wrongGuesses).length : Int) = min (max wrongGuesses 0) 6 ∧
    (drawHangman wrongGuesses).map Prod.fst =
      [Shape.base, Shape.upright, Shape.beam, Shape.rope] ++ bodyPartsDrawn wrongGuesses ∧
    bodyPartsDrawn 0 = [] ∧
    ∀ d : Nat, (bodyPartsDrawn (wrongGuesses + d)).take (bodyPartsDrawn wrongGuesses).length
      = bodyPartsDrawn wrongGuesses := by
  have key : ∀ v : Int, bodyPartsDrawn v = bodyPartOrder.take (min (max v 0) 6).toNat ∧
      (drawHangman v).map Prod.fst =
        [Shape.base, Shape.upright, Shape.beam, Shape.rope] ++ bodyPartsDrawn v := by
    intro v
    generalize hn : (min (max v 0) 6).toNat = n
    have hn6 : n ≤ 6 := by omega
    unfold bodyPartsDrawn drawHangman
    interval_cases n <;> split_ifs <;> first | omega | exact ⟨rfl, rfl⟩
  have hlen : ∀ v : Int, (bodyPartsDrawn v).length = (min (max v 0) 6).toNat := by
    intro v
    rw [(key v).1]
    simp [bodyPartOrder]
  refine ⟨(key wrongGuesses).1, ?_, (key wrongGuesses).2, by decide, ?_⟩
  · rw [hlen]; omega
  · intro d
    rw [hlen, (key wrongGuesses).1, (key (wrongGuesses + d)).1, List.take_take]
    congr 1
    omega

/-! ## Picking the word -/

/-- C8: for each of the three themes and every value `r` that `rand()` returns,
`getRandomWordAndHint` returns a pair (not the null pointer), namely the
element at index `r % 5` of the five-element list of that theme, which is in
no other theme's list; and each element of the theme's list is returned for
some `r` below 5. -/
theorem getRandomWordAndHint_spec (theme : Theme) (r : Nat) :
    (wordsOf theme).length = 5 ∧ r % 5 < (wordsOf theme).length ∧
    (∃ p, getRandomWordAndHint theme r = some p ∧ (wordsOf theme)[r % 5]? = some p ∧
      p ∈ wordsOf theme ∧ ∀ t : Theme, p ∈ wordsOf t → t = theme) ∧
    (∀ p ∈ wordsOf theme, ∃ r0 : Nat, r0 < 5 ∧ getRandomWordAndHint theme r0 = some p) := by
  have hr : r % 5 < 5 := Nat.mod_lt r (by decide)
  have hlen : (wordsOf theme).length = 5 := by cases theme <;> rfl
  have hget : getRandomWordAndHint theme r = (wordsOf theme)[r % 5]? := by
    cases theme <;> rfl
  have hdisj : ∀ t u : Theme, ∀ p ∈ wordsOf t, p ∈ wordsOf u → u = t := by
    intro t u
    cases t <;> cases u <;> decide
  have hsurj : ∀ t : Theme, ∀ p ∈ wordsOf t,
      ∃ r0 : Nat, r0 < 5 ∧ getRandomWordAndHint t r0 = some p := by
    intro t p hp
    obtain ⟨i, hi, rfl⟩ := List.getElem_of_mem hp
    have hl : (wordsOf t).length = 5 := by cases t <;> rfl
    have hi5 : i < 5 := by omega
    refine ⟨i, hi5, ?_⟩
    have : getRandomWordAndHint t i = (wordsOf t)[i % 5]? := by cases t <;> rfl
    rw [this, Nat.mod_eq_of_lt hi5, List.getElem?_eq_getElem hi]
  refine ⟨hlen, by omega, ?_, hsurj theme⟩
  have hlt : r % 5 < (wordsOf theme).length := by omega
  refine ⟨(wordsOf theme)[r % 5], ?_, List.getElem?_eq_getElem hlt, List.getElem_mem hlt, ?_⟩
  · rw [hget, List.getElem?_eq_getElem hlt]
  · intro t ht
    exact hdisj theme t _ (List.getElem_mem hlt) ht

/-! ## Handling letter keys -/

theorem toChar_letter (c : Int) (hc : 97 ≤ c ∧ c ≤ 122) : toChar c = c := by
  unfold toChar
  omega

theorem set_first_free (ls : List Int) (k : Nat) (c : Int) :
    (ls ++ List.replicate (k + 1) 0).set ls.length c = (ls ++ [c]) ++ List.replicate k 0 := by
  induction ls with
  | nil => simp [List.replicate_succ]
  | cons b rest ih => simpa using ih

/-- Handling the key-down events of the lowercase letters `ls`, in one drain,
from a state whose array holds `ls0` followed by zero bytes: every letter is
appended, and each letter that is not in the word adds one wrong guess. -/
theorem pollEvents_letters (w : List Int) (hw : ∀ b ∈ w, b ≠ 0) :
    ∀ (ls ls0 : List Int) (wg : Int) (go nr : Bool),
      (∀ c ∈ ls, 97 ≤ c ∧ c ≤ 122) → ls0.length + ls.length ≤ 26 →
      pollEvents (w ++ [0])
          ⟨ls0 ++ List.replicate (26 - ls0.length) 0, ls0.length, wg, go, nr⟩
          (ls.map Event.keyDown)
        = .ok ⟨(ls0 ++ ls) ++ List.replicate (26 - (ls0.length + ls.length)) 0,
               ls0.length + ls.length,
               wg + (ls.countP (fun c => decide (c ∉ w)) : Nat), go, nr || !ls.isEmpty⟩ := by
  intro ls
  induction ls with
  | nil => intro ls0 wg go nr _ _; simp [pollEvents]
  | cons c rest ih =>
    intro ls0 wg go nr hlow hlen
    have hc : 97 ≤ c ∧ c ≤ 122 := hlow c (by simp)
    have hrest : ∀ d ∈ rest, 97 ≤ d ∧ d ≤ 122 := fun d hd => hlow d (by simp [hd])
    have hlen1 : ls0.length + rest.length + 1 ≤ 26 := by simpa [Nat.add_assoc] using hlen
    have hc0 : c ≠ 0 := by omega
    have hroom : 26 - ls0.length = (25 - ls0.length) + 1 := by omega
    have hstep : handleEvent (w ++ [0])
        ⟨ls0 ++ List.replicate (26 - ls0.length) 0, ls0.length, wg, go, nr⟩ (Event.keyDown c)
        = .ok ⟨(ls0 ++ [c]) ++ List.replicate (26 - (ls0 ++ [c]).length) 0, (ls0 ++ [c]).length,
            (if decide (c ∈ w) then wg else wg + 1), go, true⟩ := by
      have hlt : ls0.length < (ls0 ++ List.replicate (26 - ls0.length) 0).length := by
        simp; omega
      have hs := strchr_cstr w c hw hc0
      have hset := set_first_free ls0 (25 - ls0.length) c
      have h25 : 26 - (ls0.length + 1) = 25 - ls0.length := by omega
      simp only [handleEvent, toChar_letter c hc, hc, and_self, if_true, hlt, hs]
      rw [hroom, hset]
      simp [h25]
    have hnext := ih (ls0 ++ [c]) (if decide (c ∈ w) then wg else wg + 1) go true hrest
      (by simp; omega)
    simp only [List.map_cons, pollEvents, hstep, hnext]
    by_cases hcw : c ∈ w
    · simp [hcw, Nat.add_assoc, Nat.add_comm 1]
    · simp [hcw, Nat.add_assoc, Nat.add_comm 1]
      ring

theorem lowercase_nodup_length (ls : List Int) (hlow : ∀ c ∈ ls, 97 ≤ c ∧ c ≤ 122)
    (hnd : ls.Nodup) : ls.length ≤ 26 := by
  have hsub : ls.toFinset ⊆ Finset.Icc (97 : Int) 122 := by
    intro c hc
    have := hlow c (List.mem_toFinset.mp hc)
    simp [Finset.mem_Icc, this]
  have hcard := Finset.card_le_card hsub
  rw [List.toFinset_card_of_nodup hnd, Int.card_Icc] at hcard
  simpa using hcard

/-! ## The game-over checks on an array that still holds its zero byte -/

theorem countCorrect_terminated (ls tail cs : List Int) (hls : ∀ b ∈ ls, b ≠ 0)
    (hcs : ∀ c ∈ cs, c ≠ 0) :
    countCorrect (ls ++ 0 :: tail) cs = some (cs.countP (fun c => decide (c ∈ ls))) := by
  induction cs with
  | nil => simp [countCorrect]
  | cons c rest ih =>
    have hc : c ≠ 0 := hcs c (by simp)
    have hrest : ∀ d ∈ rest, d ≠ 0 := fun d hd => hcs d (by simp [hd])
    by_cases hm : c ∈ ls
    · simp [countCorrect, strchr_terminated ls tail c hls hc, ih hrest, hm]
    · simp [countCorrect, strchr_terminated ls tail c hls hc, ih hrest, hm]

/-- The game-over checks on a state whose array holds the letters `ls` and
then a zero byte: the losing screen when `wrongGuesses ≥ 6`, and then the
congratulations screen when every character of the word is among `ls`. -/
theorem gameOverChecks_terminated (w ls tail : List Int) (s : Round)
    (hw : ∀ b ∈ w, b ≠ 0) (hls : ∀ b ∈ ls, b ≠ 0) (hs : s.guessedLetters = ls ++ 0 :: tail) :
    gameOverChecks (w ++ [0]) s =
      .ok ({ s with gameOver :=
              s.gameOver || decide (s.wrongGuesses ≥ 6) || w.all (fun c => decide (c ∈ ls)) },
        (if s.wrongGuesses ≥ 6 then [Output.losingScreen] else []) ++
        (if w.all (fun c => decide (c ∈ ls)) then [Output.congratulationsScreen] else [])) := by
  have hlen := strlen_cstr w hw
  have htake : (w ++ [0]).take w.length = w := by simp
  have hcount := countCorrect_terminated ls tail w hls hw
  have hall : (w.countP (fun c => decide (c ∈ ls)) = w.length) ↔
      w.all (fun c => decide (c ∈ ls)) = true := by
    rw [List.countP_eq_length, List.all_eq_true]
  obtain ⟨g, n, wg, go, nr⟩ := s
  simp only at hs
  subst hs
  simp only [gameOverChecks, hlen, htake, hcount]
  by_cases hwin : w.all (fun c => decide (c ∈ ls)) = true
  · have hc := hall.mpr hwin
    by_cases hlost : wg ≥ 6 <;> simp [hc, hwin, hlost]
  · have hc : ¬ (w.countP (fun c => decide (c ∈ ls)) = w.length) := fun h => hwin (hall.mp h)
    by_cases hlost : wg ≥ 6 <;> simp [hc, hwin, hlost]

/-! ## Distinct wrong letters -/

/-- C3: for a word `w` (its characters, none NUL) and pairwise distinct
lowercase letters none of which occurs in `w`, handling the key-down events of
the first `k` of them from the fresh round state succeeds and leaves
`wrongGuesses = k` (one more per guess) with `k` recorded letters; the lost
condition `wrongGuesses ≥ 6` holds exactly when `k ≥ 6`, the game-over check
run at that state shows the losing screen exactly when `k ≥ 6`, and the tries
remaining are `6 - k`, that is 0 at the sixth guess. -/
theorem distinct_wrong_guesses (w letters : List Int) (k : Nat)
    (hw : ∀ b ∈ w, b ≠ 0) (hlow : ∀ c ∈ letters, 97 ≤ c ∧ c ≤ 122)
    (hnd : letters.Nodup) (habs : ∀ c ∈ letters, c ∉ w) (hk : k ≤ letters.length) :
    ∃ s, pollEvents (w ++ [0]) Round.init ((letters.take k).map Event.keyDown) = .ok s ∧
      s.wrongGuesses = k ∧ s.numGuessedLetters = k ∧
      (s.wrongGuesses ≥ 6 ↔ 6 ≤ k) ∧ triesLeft s = 6 - k ∧ (k = 6 → triesLeft s = 0) ∧
      (k < 26 → ∃ s1 out, gameOverChecks (w ++ [0]) s = .ok (s1, out) ∧
        (Output.losingScreen ∈ out ↔ 6 ≤ k)) := by
  have h26 : letters.length ≤ 26 := lowercase_nodup_length letters hlow hnd
  have htl : (letters.take k).length = k := by simp [hk]
  have hlowk : ∀ c ∈ letters.take k, 97 ≤ c ∧ c ≤ 122 :=
    fun c hc => hlow c (List.mem_of_mem_take hc)
  have habsk : ∀ c ∈ letters.take k, decide (c ∉ w) = true :=
    fun c hc => by simpa using habs c (List.mem_of_mem_take hc)
  have hcount : (letters.take k).countP (fun c => decide (c ∉ w)) = k := by
    rw [List.countP_eq_length.mpr habsk, htl]
  have hrun := pollEvents_letters w hw (letters.take k) [] 0 false true hlowk
    (by simp; omega)
  simp only [List.length_nil, Nat.sub_zero, List.nil_append, Nat.zero_add, hcount, htl,
    zero_add] at hrun
  refine ⟨_, hrun, rfl, rfl, ?_, ?_, ?_, ?_⟩
  · simp
  · simp [triesLeft]
  · intro h6; simp [triesLeft, h6]
  · intro hk26
    have hroom : 26 - k = (25 - k) + 1 := by omega
    have hnz : ∀ b ∈ letters.take k, b ≠ 0 := fun b hb => by
      have := hlowk b hb
      omega
    have hchk := gameOverChecks_terminated w (letters.take k) (List.replicate (25 - k) 0)
      ⟨letters.take k ++ List.replicate (26 - k) 0, k, (k : Int), false, true || !(letters.take k).isEmpty⟩
      hw hnz (by simp [hroom, List.replicate_succ])
    refine ⟨_, _, hchk, ?_⟩
    by_cases h6 : 6 ≤ k
    · have : (k : Int) ≥ 6 := by omega
      simp [h6, this]
    · have : ¬ (k : Int) ≥ 6 := by omega
      simp only [this, if_false, List.nil_append, h6, iff_false]
      split_ifs <;> simp

/-- C3 at the word "cape" with the guesses z, x, q, w, v, y: the hypotheses
hold, the round run with the checks after each key ends with the losing screen
only, `wrongGuesses = 6` and 0 tries left, and the theorem applies with `k = 6`. -/
theorem distinct_wrong_guesses_witness :
    (∀ b ∈ [(99 : Int), 97, 112, 101], b ≠ 0) ∧
    (∀ c ∈ [(122 : Int), 120, 113, 119, 118, 121], 97 ≤ c ∧ c ≤ 122) ∧
    [(122 : Int), 120, 113, 119, 118, 121].Nodup ∧
    (∀ c ∈ [(122 : Int), 120, 113, 119, 118, 121], c ∉ [(99 : Int), 97, 112, 101]) ∧
    6 ≤ [(122 : Int), 120, 113, 119, 118, 121].length ∧
    cstr "cape" = [99, 97, 112, 101] ++ [0] ∧
    (∃ s out, runRound (cstr "cape") Round.init (oneByOne [122, 120, 113, 119, 118, 121])
        = .ok (s, out) ∧ s.gameOver = true ∧ s.wrongGuesses = 6 ∧ triesLeft s = 0 ∧
        Output.losingScreen ∈ out ∧ Output.congratulationsScreen ∉ out) ∧
    ∃ s, pollEvents ([99, 97, 112, 101] ++ [0]) Round.init
        (([(122 : Int), 120, 113, 119, 118, 121].take 6).map Event.keyDown) = .ok s ∧
      s.wrongGuesses = (6 : Nat) ∧ s.numGuessedLetters = 6 ∧
      (s.wrongGuesses ≥ 6 ↔ 6 ≤ 6) ∧ triesLeft s = 6 - (6 : Nat) ∧ (6 = 6 → triesLeft s = 0) ∧
      (6 < 26 → ∃ s1 out, gameOverChecks ([99, 97, 112, 101] ++ [0]) s = .ok (s1, out) ∧
        (Output.losingScreen ∈ out ↔ 6 ≤ 6)) :=
  ⟨by decide, by decide, by decide, by decide, by decide, by decide,
    ⟨_, _, rfl, by decide, by decide, by decide, by decide, by decide⟩,
    distinct_wrong_guesses [99, 97, 112, 101] [122, 120, 113, 119, 118, 121] 6
      (by decide) (by decide) (by decide) (by decide) (by decide)⟩

/-! ## A letter pressed again -/

theorem take_set_succ (c : Int) : ∀ (g : List Int) (n : Nat), n < g.length →
    (g.set n c).take (n + 1) = g.take n ++ [c] := by
  intro g
  induction g with
  | nil => intro n hn; simp at hn
  | cons b rest ih =>
    intro n hn
    cases n with
    | zero => simp
    | succ m =>
      have hm : m < rest.length := by simpa using hn
      simp [ih m hm]

/-- C1, the claim as stated fails: on the word "ship", after the key z has been
handled once (one recorded letter, one wrong guess, round in progress), the
key z pressed again is recorded again and counted as a second wrong guess. -/
theorem repeated_key_changes_state :
    runRound (cstr "ship") Round.init (oneByOne [122]) =
      .ok (⟨122 :: List.replicate 25 0, 1, 1, false, false⟩,
        [Output.redraw 1 [Cell.underscore 100, Cell.underscore 140, Cell.underscore 180,
          Cell.underscore 220] 5]) ∧
    (122 : Int) ∈ (122 :: List.replicate 25 (0 : Int)).take 1 ∧
    handleEvent (cstr "ship") ⟨122 :: List.replicate 25 0, 1, 1, false, false⟩ (Event.keyDown 122) =
      .ok ⟨122 :: 122 :: List.replicate 24 0, 2, 2, false, true⟩ := by
  decide

/-- C1 as amended: for a word `w` (its characters, none NUL), a round state
whose array has a free slot and a lowercase letter `c` already recorded, the
key-down of `c` is handled by recording `c` once more: `numGuessedLetters`
grows by 1, the set of recorded letters stays the same, and `wrongGuesses`
stays the same when `c` occurs in the word and grows by 1 when it does not. -/
theorem repeated_key_recorded_again (w : List Int) (s : Round) (c : Int)
    (hw : ∀ b ∈ w, b ≠ 0) (hc : 97 ≤ c ∧ c ≤ 122)
    (hg : c ∈ s.guessedLetters.take s.numGuessedLetters)
    (hroom : s.numGuessedLetters < s.guessedLetters.length) :
    ∃ s1, handleEvent (w ++ [0]) s (Event.keyDown c) = .ok s1 ∧
      s1.numGuessedLetters = s.numGuessedLetters + 1 ∧
      s1.wrongGuesses = (if c ∈ w then s.wrongGuesses else s.wrongGuesses + 1) ∧
      (∀ x, x ∈ s1.guessedLetters.take s1.numGuessedLetters ↔
        x ∈ s.guessedLetters.take s.numGuessedLetters) ∧
      s1.gameOver = s.gameOver := by
  have hc0 : c ≠ 0 := by omega
  have hs := strchr_cstr w c hw hc0
  have hrun : handleEvent (w ++ [0]) s (Event.keyDown c) =
      .ok { s with
            guessedLetters := s.guessedLetters.set s.numGuessedLetters c
            numGuessedLetters := s.numGuessedLetters + 1
            wrongGuesses := if decide (c ∈ w) then s.wrongGuesses else s.wrongGuesses + 1
            needsRedraw := true } := by
    simp only [handleEvent, toChar_letter c hc, hc, and_self, if_true, hroom, hs]
  refine ⟨_, hrun, rfl, by simp, ?_, rfl⟩
  intro x
  simp only [take_set_succ c s.guessedLetters s.numGuessedLetters hroom, List.mem_append,
    List.mem_singleton]
  constructor
  · rintro (h | h)
    · exact h
    · exact h ▸ hg
  · intro h; exact Or.inl h

/-- C1 as amended, at the word "ship": the key s pressed again after s, and
the key z pressed again after z. -/
theorem repeated_key_recorded_again_witness :
    (∀ b ∈ [(115 : Int), 104, 105, 112], b ≠ 0) ∧ (97 ≤ (122 : Int) ∧ (122 : Int) ≤ 122) ∧
    (122 : Int) ∈ (Round.mk (122 :: List.replicate 25 0) 1 1 false false).guessedLetters.take
      (Round.mk (122 :: List.replicate 25 0) 1 1 false false).numGuessedLetters ∧
    (Round.mk (122 :: List.replicate 25 0) 1 1 false false).numGuessedLetters <
      (Round.mk (122 :: List.replicate 25 0) 1 1 false false).guessedLetters.length ∧
    ∃ s1, handleEvent ([115, 104, 105, 112] ++ [0])
        (Round.mk (122 :: List.replicate 25 0) 1 1 false false) (Event.keyDown 122) = .ok s1 ∧
      s1.numGuessedLetters = (Round.mk (122 :: List.replicate 25 0) 1 1 false false).numGuessedLetters + 1 ∧
      s1.wrongGuesses = (if (122 : Int) ∈ [(115 : Int), 104, 105, 112]
        then (Round.mk (122 :: List.replicate 25 0) 1 1 false false).wrongGuesses
        else (Round.mk (122 :: List.replicate 25 0) 1 1 false false).wrongGuesses + 1) ∧
      (∀ x, x ∈ s1.guessedLetters.take s1.numGuessedLetters ↔
        x ∈ (Round.mk (122 :: List.replicate 25 0) 1 1 false false).guessedLetters.take
          (Round.mk (122 :: List.replicate 25 0) 1 1 false false).numGuessedLetters) ∧
      s1.gameOver = (Round.mk (122 :: List.replicate 25 0) 1 1 false false).gameOver :=
  ⟨by decide, by decide, by decide, by decide,
    repeated_key_recorded_again [115, 104, 105, 112]
      (Round.mk (122 :: List.replicate 25 0) 1 1 false false) 122
      (by decide) (by decide) (by decide) (by decide)⟩

/-! ## Evaluations of the round loop -/

/-- C2 fails on the code: with the seven key-down events z, x, q, w, v, y, j
pending in one drain on the word "cape", the state after the sixth has
`wrongGuesses = 6`, the seventh is still handled, and the iteration ends with
seven recorded letters, `wrongGuesses = 7` and "Tries left: -1" drawn before
the losing screen. -/
theorem queued_keys_pass_six :
    pollEvents (cstr "cape") Round.init
        ([122, 120, 113, 119, 118, 121].map Event.keyDown) =
      .ok ⟨[122, 120, 113, 119, 118, 121] ++ List.replicate 20 0, 6, 6, false, true⟩ ∧
    handleEvent (cstr "cape")
        ⟨[122, 120, 113, 119, 118, 121] ++ List.replicate 20 0, 6, 6, false, true⟩
        (Event.keyDown 106) =
      .ok ⟨[122, 120, 113, 119, 118, 121, 106] ++ List.replicate 19 0, 7, 7, false, true⟩ ∧
    roundIteration (cstr "cape") Round.init
        ([122, 120, 113, 119, 118, 121, 106].map Event.keyDown) =
      .ok (⟨[122, 120, 113, 119, 118, 121, 106] ++ List.replicate 19 0, 7, 7, true, false⟩,
        [Output.redraw 7 [Cell.underscore 100, Cell.underscore 140, Cell.underscore 180,
          Cell.underscore 220] (-1), Output.losingScreen]) := by
  decide

/-- C5 fails on the code: with the ten key-down events z, x, q, w, v, y, c, a,
p, e pending in one drain on the word "cape", the game-over checks run on a
state with `wrongGuesses = 6` and every letter of the word recorded, and show
the losing screen and then the congratulations screen. -/
theorem both_end_screens_shown :
    gameOverChecks (cstr "cape")
        ⟨[122, 120, 113, 119, 118, 121, 99, 97, 112, 101] ++ List.replicate 16 0, 10, 6,
          false, false⟩ =
      .ok (⟨[122, 120, 113, 119, 118, 121, 99, 97, 112, 101] ++ List.replicate 16 0, 10, 6,
          true, false⟩, [Output.losingScreen, Output.congratulationsScreen]) ∧
    roundIteration (cstr "cape") Round.init
        ([122, 120, 113, 119, 118, 121, 99, 97, 112, 101].map Event.keyDown) =
      .ok (⟨[122, 120, 113, 119, 118, 121, 99, 97, 112, 101] ++ List.replicate 16 0, 10, 6,
          true, false⟩,
        [Output.redraw 6 [Cell.letter 100 99, Cell.letter 140 97, Cell.letter 180 112,
          Cell.letter 220 101] 0, Output.losingScreen, Output.congratulationsScreen]) := by
  decide

/-- C7 fails on the code: the 32-bit key code 1073741922 (0x40000062) is not
one of 97..122, its conversion to `char` is 98, the letter b, and its
key-down on the word "ship" is handled as the guess b: one recorded letter and
one wrong guess. -/
theorem wide_key_code_taken_as_letter :
    (-2147483648 ≤ (1073741922 : Int) ∧ (1073741922 : Int) < 2147483648) ∧
    ¬ (97 ≤ (1073741922 : Int) ∧ (1073741922 : Int) ≤ 122) ∧
    toChar 1073741922 = 98 ∧
    handleEvent (cstr "ship") Round.init (Event.keyDown 1073741922) =
      .ok ⟨98 :: List.replicate 25 0, 1, 1, false, true⟩ := by
  decide

/-- C10 fails on the code: on the lexicon word "ship", the key s pressed 26
times with the checks after each key.  After 25 keys the round is in progress
with 25 recorded letters; the 26th store fills the last byte of the array, so
`numGuessedLetters = 26` and no zero byte is left; the win check then scans
past the end of the array, and a 27th key would store at index 26. -/
theorem repeated_key_overruns_array :
    (∃ s out, runRound (cstr "ship") Round.init (oneByOne (List.replicate 25 115)) = .ok (s, out) ∧
      s = ⟨List.replicate 25 115 ++ [0], 25, 0, false, false⟩) ∧
    handleEvent (cstr "ship") ⟨List.replicate 25 115 ++ [0], 25, 0, false, false⟩
        (Event.keyDown 115) = .ok ⟨List.replicate 26 115, 26, 0, false, true⟩ ∧
    gameOverChecks (cstr "ship") ⟨List.replicate 26 115, 26, 0, false, false⟩ = .fault ∧
    handleEvent (cstr "ship") ⟨List.replicate 26 115, 26, 0, false, false⟩
        (Event.keyDown 115) = .fault ∧
    runRound (cstr "ship") Round.init (oneByOne (List.replicate 26 115)) = .fault :=
  ⟨⟨_, _, rfl, by decide⟩, by decide, by decide, by decide, by decide⟩

/-- C4 fails on the code: on the word "ship", the guesses s (26 times), h, i, p
contain every letter of the word and no wrong letter, yet the round run with
the checks after each guess does not reach the win: it leaves the array at the
26th key.  The guesses p, a, r, o, t on "parrot" do end with the
congratulations screen only and `wrongGuesses = 0`. -/
theorem long_guess_sequence_overruns_array :
    (∀ c ∈ [(115 : Int), 104, 105, 112], c ∈ List.replicate 26 (115 : Int) ++ [104, 105, 112]) ∧
    (∀ c ∈ List.replicate 26 (115 : Int) ++ [104, 105, 112], c ∈ [(115 : Int), 104, 105, 112]) ∧
    runRound (cstr "ship") Round.init
      (oneByOne (List.replicate 26 115 ++ [104, 105, 112])) = .fault ∧
    ∃ s out, runRound (cstr "parrot") Round.init (oneByOne [112, 97, 114, 111, 116])
        = .ok (s, out) ∧ s.gameOver = true ∧ s.wrongGuesses = 0 ∧
        Output.congratulationsScreen ∈ out ∧ Output.losingScreen ∉ out :=
  ⟨by decide, by decide, by decide, ⟨_, _, rfl, by decide, by decide, by decide, by decide⟩⟩

/-! ## Rounds played one key at a time, within the capacity of the array -/

theorem strchr_found (ls tail : List Int) (c : Int) (hls : ∀ b ∈ ls, b ≠ 0) (hc : c ∈ ls) :
    strchr (ls ++ tail) c = some true := by
  induction ls with
  | nil => simp at hc
  | cons b rest ih =>
    have hb : b ≠ 0 := hls b (by simp)
    have hrest : ∀ b ∈ rest, b ≠ 0 := fun x hx => hls x (by simp [hx])
    by_cases hbc : b = c
    · simp [strchr, hbc]
    · have hc' : c ∈ rest := by
        rcases List.mem_cons.mp hc with h | h
        · exact absurd h.symm hbc
        · exact h
      simp [strchr, hbc, hb, ih hrest hc']

theorem countCorrect_all_found (ls tail cs : List Int) (hls : ∀ b ∈ ls, b ≠ 0)
    (hcs : ∀ c ∈ cs, c ∈ ls) : countCorrect (ls ++ tail) cs = some cs.length := by
  induction cs with
  | nil => simp [countCorrect]
  | cons c rest ih =>
    have hc : c ∈ ls := hcs c (by simp)
    have hrest : ∀ d ∈ rest, d ∈ ls := fun d hd => hcs d (by simp [hd])
    simp [countCorrect, strchr_found ls tail c hls hc, ih hrest]

/-- The game-over checks when every character of the word is recorded: the
congratulations screen is shown, after the losing screen when `wrongGuesses ≥ 6`. -/
theorem gameOverChecks_all_found (w ls tail : List Int) (wg : Int) (n : Nat) (go nr : Bool)
    (hw : ∀ b ∈ w, b ≠ 0) (hls : ∀ b ∈ ls, b ≠ 0) (hall : ∀ c ∈ w, c ∈ ls) :
    gameOverChecks (w ++ [0]) ⟨ls ++ tail, n, wg, go, nr⟩ =
      .ok (⟨ls ++ tail, n, wg, true, nr⟩,
        (if wg ≥ 6 then [Output.losingScreen] else []) ++ [Output.congratulationsScreen]) := by
  have hlen := strlen_cstr w hw
  have htake : (w ++ [0]).take w.length = w := by simp
  have hcount := countCorrect_all_found ls tail w hls hall
  simp only [gameOverChecks, hlen, htake, hcount]
  by_cases hlost : wg ≥ 6 <;> simp [hlost]

/-- One iteration of the round loop with the single pending key-down of the
lowercase letter `c`, from an in-progress state holding the letters `ls`:
the letter is recorded, the screen is redrawn, and the checks run.  It needs
a free slot for `c`, and a zero byte left after it unless the word is complete. -/
theorem roundIteration_key (w ls : List Int) (wg : Int) (nr : Bool) (c : Int)
    (hw : ∀ b ∈ w, b ≠ 0) (hls : ∀ b ∈ ls, 97 ≤ b ∧ b ≤ 122) (hc : 97 ≤ c ∧ c ≤ 122)
    (hlen : ls.length < 26) (hfin : ls.length + 1 < 26 ∨ ∀ x ∈ w, x ∈ ls ++ [c]) :
    ∃ cells, roundIteration (w ++ [0]) (Round.holding ls wg false nr) [Event.keyDown c] =
      .ok (Round.holding (ls ++ [c]) (if c ∈ w then wg else wg + 1)
            (decide ((if c ∈ w then wg else wg + 1) ≥ 6) ||
              w.all (fun x => decide (x ∈ ls ++ [c]))) false,
        [Output.redraw (if c ∈ w then wg else wg + 1) cells
            (6 - (if c ∈ w then wg else wg + 1))] ++
          (if (if c ∈ w then wg else wg + 1) ≥ 6 then [Output.losingScreen] else []) ++
          (if w.all (fun x => decide (x ∈ ls ++ [c])) then [Output.congratulationsScreen]
            else [])) := by
  generalize hwg : (if c ∈ w then wg else wg + 1) = wg1
  have hpoll : pollEvents (w ++ [0]) (Round.holding ls wg false nr) [Event.keyDown c] =
      .ok (Round.holding (ls ++ [c]) wg1 false true) := by
    have h := pollEvents_letters w hw [c] ls wg false nr (by simpa using hc) (by simp; omega)
    simp only [List.map_cons, List.map_nil] at h
    rw [Round.holding, h, ← hwg]
    by_cases hcw : c ∈ w <;> simp [Round.holding, hcw]
  have hnz : ∀ b ∈ ls ++ [c], b ≠ 0 := by
    intro b hb
    rcases List.mem_append.mp hb with h | h
    · have := hls b h; omega
    · have : b = c := by simpa using h
      omega
  obtain ⟨cells, hdraw, -, -⟩ := drawWord_cells w
    ((ls ++ [c]) ++ List.replicate (26 - (ls ++ [c]).length) 0) (ls ++ [c]).length hw
    (by simp)
  refine ⟨cells, ?_⟩
  have hredraw : redraw (w ++ [0]) (Round.holding (ls ++ [c]) wg1 false true) =
      .ok (Round.holding (ls ++ [c]) wg1 false false, [Output.redraw wg1 cells (6 - wg1)]) := by
    simp only [redraw, Round.holding, if_true, hdraw, triesLeft]
  simp only [roundIteration, hpoll, hredraw]
  by_cases hwon : ∀ x ∈ w, x ∈ ls ++ [c]
  · have hall : w.all (fun x => decide (x ∈ ls ++ [c])) = true := by
      rw [List.all_eq_true]; intro x hx; simpa using hwon x hx
    have hchk := gameOverChecks_all_found w (ls ++ [c])
      (List.replicate (26 - (ls ++ [c]).length) 0) wg1 (ls ++ [c]).length false false hw hnz hwon
    simp only [Round.holding, hchk, hall]
    simp
  · have hall : ¬ (w.all (fun x => decide (x ∈ ls ++ [c])) = true) := by
      rw [List.all_eq_true]; intro h; exact hwon (fun x hx => by simpa using h x hx)
    have hroom : ls.length + 1 < 26 := by
      rcases hfin with h | h
      · exact h
      · exact absurd h hwon
    have hrep : List.replicate (26 - (ls ++ [c]).length) (0 : Int) =
        0 :: List.replicate (24 - ls.length) 0 := by
      have : 26 - (ls ++ [c]).length = (24 - ls.length) + 1 := by simp; omega
      rw [this, List.replicate_succ]
    have hchk := gameOverChecks_terminated w (ls ++ [c]) (List.replicate (24 - ls.length) 0)
      (Round.holding (ls ++ [c]) wg1 false false) hw hnz (by simp only [Round.holding, hrep])
    simp only [hchk, Bool.not_eq_true] at hall ⊢
    simp [Round.holding, hall]

theorem runRound_gameOver (word : List Int) (s : Round) (frames : List (List Event))
    (h : s.gameOver = true) : runRound word s frames = .ok (s, []) := by
  cases frames with
  | nil => rfl
  | cons f fs => simp [runRound, h]

/-- A round played one key per iteration, from an in-progress state holding
the letters `ls` that do not yet complete the word: when the lowercase guesses
`syms` fit in the array, bring every character of the word, and keep
`wrongGuesses` below 6, the round ends with the congratulations screen and
without the losing screen. -/
theorem runRound_won_from (w : List Int) (hw : ∀ b ∈ w, b ≠ 0) :
    ∀ (syms ls : List Int) (wg : Int) (nr : Bool),
      (∀ c ∈ syms, 97 ≤ c ∧ c ≤ 122) → (∀ b ∈ ls, 97 ≤ b ∧ b ≤ 122) →
      ls.length + syms.length ≤ 26 → (∀ x ∈ w, x ∈ ls ++ syms) → ¬ (∀ x ∈ w, x ∈ ls) →
      wg + (syms.countP (fun c => decide (c ∉ w)) : Nat) < 6 →
      ∃ s out, runRound (w ++ [0]) (Round.holding ls wg false nr) (oneByOne syms) = .ok (s, out) ∧
        s.gameOver = true ∧ s.wrongGuesses < 6 ∧
        s.wrongGuesses ≤ wg + (syms.countP (fun c => decide (c ∉ w)) : Nat) ∧
        (∀ x ∈ w, x ∈ s.guessedLetters.take s.numGuessedLetters) ∧
        Output.congratulationsScreen ∈ out ∧ Output.losingScreen ∉ out := by
  intro syms
  induction syms with
  | nil =>
    intro ls wg nr _ _ _ hall hnot _
    exact absurd (by simpa using hall) hnot
  | cons c rest ih =>
    intro ls wg nr hsyms hls hlen hall hnot hwrong
    have hc : 97 ≤ c ∧ c ≤ 122 := hsyms c (by simp)
    have hrest : ∀ d ∈ rest, 97 ≤ d ∧ d ≤ 122 := fun d hd => hsyms d (by simp [hd])
    have hlen1 : ls.length + rest.length + 1 ≤ 26 := by simpa [Nat.add_assoc] using hlen
    have hls1 : ∀ b ∈ ls ++ [c], 97 ≤ b ∧ b ≤ 122 := by
      intro b hb
      rcases List.mem_append.mp hb with h | h
      · exact hls b h
      · have : b = c := by simpa using h
        exact this ▸ hc
    have hcount : ((c :: rest).countP (fun c => decide (c ∉ w)) : Int) =
        (if c ∈ w then 0 else 1) + (rest.countP (fun c => decide (c ∉ w)) : Nat) := by
      by_cases hcw : c ∈ w <;> simp [List.countP_cons, hcw]
      ring
    have hwg1 : (if c ∈ w then wg else wg + 1) +
        (rest.countP (fun c => decide (c ∉ w)) : Nat) < 6 := by
      by_cases hcw : c ∈ w <;> simp only [hcw, if_true, if_false] at hcount ⊢ <;> omega
    have hwg1' : (if c ∈ w then wg else wg + 1) ≤
        wg + ((c :: rest).countP (fun c => decide (c ∉ w)) : Nat) := by
      by_cases hcw : c ∈ w <;> simp only [hcw, if_true, if_false] at hcount ⊢ <;> omega
    have hlost : ¬ ((if c ∈ w then wg else wg + 1) ≥ 6) := by
      by_cases hcw : c ∈ w <;> simp only [hcw, if_true, if_false] at hwg1 ⊢ <;> omega
    have hfin : ls.length + 1 < 26 ∨ ∀ x ∈ w, x ∈ ls ++ [c] := by
      by_cases hwon : ∀ x ∈ w, x ∈ ls ++ [c]
      · exact Or.inr hwon
      · left
        cases rest with
        | nil => exact absurd hall hwon
        | cons d more => simp at hlen1; omega
    obtain ⟨cells, hiter⟩ := roundIteration_key w ls wg nr c hw hls hc (by omega) hfin
    have hgo : (Round.holding ls wg false nr).gameOver = false := rfl
    simp only [oneByOne, List.map_cons, runRound, hgo, Bool.false_eq_true, if_false, hiter]
    by_cases hwon : ∀ x ∈ w, x ∈ ls ++ [c]
    · have hallb : w.all (fun x => decide (x ∈ ls ++ [c])) = true := by
        rw [List.all_eq_true]; intro x hx; simpa using hwon x hx
      have hgo1 : (decide ((if c ∈ w then wg else wg + 1) ≥ 6) ||
          w.all (fun x => decide (x ∈ ls ++ [c]))) = true := by
        rw [hallb, Bool.or_true]
      rw [hgo1]
      have hstop := runRound_gameOver (w ++ [0])
          (Round.holding (ls ++ [c]) (if c ∈ w then wg else wg + 1) true false)
          (List.map (fun sym => [Event.keyDown sym]) rest) rfl
      rw [hstop]
      simp only [hallb, ↓reduceIte]
      refine ⟨_, _, rfl, rfl, ?_, hwg1', ?_, ?_, ?_⟩
      · simpa [Round.holding] using hlost
      · intro x hx
        have hx1 := hwon x hx
        simp only [Round.holding, List.take_left]
        exact hx1
      · simp
      · simp [hlost]
    · have hallb : w.all (fun x => decide (x ∈ ls ++ [c])) = false := by
        rw [← Bool.not_eq_true, List.all_eq_true]
        intro h; exact hwon (fun x hx => by simpa using h x hx)
      have hlostb : decide ((if c ∈ w then wg else wg + 1) ≥ 6) = false := by
        simpa using hlost
      obtain ⟨s, out, hrun, h1, h2, h3, h4, h5, h6⟩ := ih (ls ++ [c])
        (if c ∈ w then wg else wg + 1) false hrest hls1 (by simp; omega)
        (by intro x hx; simpa using hall x hx) hwon hwg1
      simp only [hallb, hlostb, Bool.or_false]
      simp only [oneByOne] at hrun
      rw [hrun]
      refine ⟨s, _, rfl, h1, h2, ?_, h4, ?_, ?_⟩
      · by_cases hcw : c ∈ w <;> simp only [hcw, if_true, if_false] at h3 hcount ⊢ <;> omega
      · simp [h5]
      · simp [hlost, h6]

/-- A fresh round played one key per iteration: when the word is not empty,
the lowercase guesses fit in the array, contain every character of the word
and include fewer than 6 letters that are not in the word, the round ends
with the congratulations screen and without the losing screen. -/
theorem round_won_within_capacity (w syms : List Int) (hw : ∀ b ∈ w, b ≠ 0) (hne : w ≠ [])
    (hsyms : ∀ c ∈ syms, 97 ≤ c ∧ c ≤ 122) (hlen : syms.length ≤ 26)
    (hall : ∀ x ∈ w, x ∈ syms) (hwrong : syms.countP (fun c => decide (c ∉ w)) < 6) :
    ∃ s out, runRound (w ++ [0]) Round.init (oneByOne syms) = .ok (s, out) ∧
      s.gameOver = true ∧ s.wrongGuesses < 6 ∧
      (∀ x ∈ w, x ∈ s.guessedLetters.take s.numGuessedLetters) ∧
      Output.congratulationsScreen ∈ out ∧ Output.losingScreen ∉ out := by
  have hnot : ¬ (∀ x ∈ w, x ∈ ([] : List Int)) := by
    cases w with
    | nil => exact absurd rfl hne
    | cons b rest => intro h; simpa using h b (by simp)
  obtain ⟨s, out, hrun, h1, h2, -, h4, h5, h6⟩ :=
    runRound_won_from w hw syms [] 0 true hsyms (by simp) (by simpa using hlen)
      (by simpa using hall) hnot (by omega)
  exact ⟨s, out, hrun, h1, h2, h4, h5, h6⟩

/-- A round played one key per iteration from an in-progress state with at
most 5 wrong guesses: when the lowercase guesses leave a zero byte in the
array, the round returns with `wrongGuesses` between 0 and 6, at most 5 while
it is in progress, and fewer than 26 recorded letters. -/
theorem runRound_bounds_from (w : List Int) (hw : ∀ b ∈ w, b ≠ 0) :
    ∀ (syms ls : List Int) (wg : Int) (nr : Bool),
      (∀ c ∈ syms, 97 ≤ c ∧ c ≤ 122) → (∀ b ∈ ls, 97 ≤ b ∧ b ≤ 122) →
      ls.length + syms.length < 26 → 0 ≤ wg → wg ≤ 5 →
      ∃ s out, runRound (w ++ [0]) (Round.holding ls wg false nr) (oneByOne syms) = .ok (s, out) ∧
        0 ≤ s.wrongGuesses ∧ s.wrongGuesses ≤ 6 ∧ (s.gameOver = false → s.wrongGuesses ≤ 5) ∧
        s.numGuessedLetters < 26 ∧ s.guessedLetters.length = 26 ∧
        s.guessedLetters.drop s.numGuessedLetters =
          List.replicate (26 - s.numGuessedLetters) 0 := by
  intro syms
  induction syms with
  | nil =>
    intro ls wg nr _ _ hlen h0 h5
    have hlen0 : ls.length < 26 := by simpa using hlen
    refine ⟨_, _, rfl, h0, (by show wg ≤ 6; omega), fun _ => h5, hlen0, ?_, ?_⟩
    · simp [Round.holding]; omega
    · simp [Round.holding]
  | cons c rest ih =>
    intro ls wg nr hsyms hls hlen h0 h5
    have hc : 97 ≤ c ∧ c ≤ 122 := hsyms c (by simp)
    have hrest : ∀ d ∈ rest, 97 ≤ d ∧ d ≤ 122 := fun d hd => hsyms d (by simp [hd])
    have hlen1 : ls.length + rest.length + 1 < 26 := by simpa [Nat.add_assoc] using hlen
    have hls1 : ∀ b ∈ ls ++ [c], 97 ≤ b ∧ b ≤ 122 := by
      intro b hb
      rcases List.mem_append.mp hb with h | h
      · exact hls b h
      · have : b = c := by simpa using h
        exact this ▸ hc
    obtain ⟨cells, hiter⟩ := roundIteration_key w ls wg nr c hw hls hc (by omega)
      (Or.inl (by omega))
    have hgo : (Round.holding ls wg false nr).gameOver = false := rfl
    simp only [oneByOne, List.map_cons, runRound, hgo, Bool.false_eq_true, if_false, hiter]
    generalize hwg1 : (if c ∈ w then wg else wg + 1) = wg1
    have hb0 : 0 ≤ wg1 := by
      by_cases hcw : c ∈ w <;> simp only [hcw, if_true, if_false] at hwg1 <;> omega
    have hb6 : wg1 ≤ 6 := by
      by_cases hcw : c ∈ w <;> simp only [hcw, if_true, if_false] at hwg1 <;> omega
    generalize hgo1 : (decide (wg1 ≥ 6) || w.all (fun x => decide (x ∈ ls ++ [c]))) = go1
    cases go1 with
    | true =>
      have hstop := runRound_gameOver (w ++ [0]) (Round.holding (ls ++ [c]) wg1 true false)
        (List.map (fun sym => [Event.keyDown sym]) rest) rfl
      rw [hstop]
      refine ⟨_, _, rfl, hb0, hb6, fun h => by simp [Round.holding] at h, ?_, ?_, ?_⟩
      · simp [Round.holding]; omega
      · simp [Round.holding]; omega
      · simp [Round.holding]
    | false =>
      have hnl : ¬ wg1 ≥ 6 := by
        intro h
        simp [h] at hgo1
      obtain ⟨s, out, hrun, h1, h2, h3, h4, h5', h6⟩ := ih (ls ++ [c]) wg1 false hrest hls1
        (by simp; omega) hb0 (by omega)
      simp only [oneByOne] at hrun
      rw [hrun]
      exact ⟨s, _, rfl, h1, h2, h3, h4, h5', h6⟩

/-- A fresh round played one key per iteration with at most 25 lowercase
guesses: `wrongGuesses` stays between 0 and 6 and the array keeps a zero byte. -/
theorem round_bounds_single_keys (w syms : List Int) (hw : ∀ b ∈ w, b ≠ 0)
    (hsyms : ∀ c ∈ syms, 97 ≤ c ∧ c ≤ 122) (hlen : syms.length < 26) :
    ∃ s out, runRound (w ++ [0]) Round.init (oneByOne syms) = .ok (s, out) ∧
      0 ≤ s.wrongGuesses ∧ s.wrongGuesses ≤ 6 ∧ (s.gameOver = false → s.wrongGuesses ≤ 5) ∧
      s.numGuessedLetters < 26 ∧ s.guessedLetters.length = 26 ∧
      s.guessedLetters.drop s.numGuessedLetters =
        List.replicate (26 - s.numGuessedLetters) 0 :=
  runRound_bounds_from w hw syms [] 0 true hsyms (by simp) (by simpa using hlen)
    (by omega) (by omega)

/-! ## Keys that are not taken as a guess -/

/-- A key-down whose key code, converted to `char`, is not in 97..122 leaves
the round state as it is. -/
theorem key_ignored_of_char (word : List Int) (s : Round) (sym : Int)
    (h : ¬ (97 ≤ toChar sym ∧ toChar sym ≤ 122)) :
    handleEvent word s (Event.keyDown sym) = .ok s := by
  simp only [handleEvent, h, if_false]

/-- A key-down with a key code in 0..127 other than 97..122 leaves the round
state as it is. -/
theorem key_ignored_of_ascii (word : List Int) (s : Round) (sym : Int)
    (hlo : 0 ≤ sym) (hhi : sym < 128) (h : ¬ (97 ≤ sym ∧ sym ≤ 122)) :
    handleEvent word s (Event.keyDown sym) = .ok s := by
  apply key_ignored_of_char
  unfold toChar
  omega

end Hangman
